import Mathlib

/-!
Verification development for the RAJAPerf PI_REDUCE CUDA reduction engine,
the POLYBENCH_FLOYD_WARSHALL sequential-recurrence kernel chain, and their
shared variant/tuning dispatcher.

Real-valued device arithmetic (`Real_type`) is embedded as `ℚ`, so the
kernel accumulations are exact; `Index_type` values, which are always
non-negative here, are embedded as `ℕ`.  Device loops are embedded as
structurally recursive functions with an explicit fuel argument that is
always at least the number of iterations the source loop performs.
-/

/-! ## PI_REDUCE: the pi_reduce kernel (PI_REDUCE-Cuda.cpp lines 26-59) -/

/-- The midpoint abscissa `x = (double(i) + 0.5) * dx` from the kernel body. -/
def pi_reduce_x (dx : ℚ) (i : ℕ) : ℚ := ((i : ℚ) + 1/2) * dx

/-- The midpoint-rule term `dx / (1.0 + x * x)` from the kernel body. -/
def pi_reduce_term (dx : ℚ) (i : ℕ) : ℚ :=
  dx / (1 + pi_reduce_x dx i * pi_reduce_x dx i)

/-- The per-thread strided accumulation loop
`for ( ; i < iend ; i += gridDim.x * block_size ) ppi[tid] += dx/(1+x*x);`.
The fuel argument only bounds the iteration count; it is instantiated with
`iend`, which is enough whenever the stride is positive. -/
def pi_reduce_loop (dx : ℚ) (iend stride : ℕ) : ℕ → ℕ → ℚ → ℚ
  | 0, _, acc => acc
  | fuel + 1, i, acc =>
    if i < iend then
      pi_reduce_loop dx iend stride fuel (i + stride) (acc + pi_reduce_term dx i)
    else acc

/-- Shared-memory cell `ppi[t]` of block `b` after the strided accumulation
phase: seeded with `pi_init` and accumulated with stride `gridDim.x * block_size`
starting at the thread's global id `blockIdx.x * block_size + threadIdx.x`. -/
def pi_reduce_ppi (dx pi_init : ℚ) (iend grid_size block_size b t : ℕ) : ℚ :=
  pi_reduce_loop dx iend (grid_size * block_size) iend (b * block_size + t) pi_init

/-- One synchronized step of the in-block tree reduction: all threads
`t < s` perform `ppi[t] += ppi[t + s]` before the barrier. -/
def pi_reduce_tree_step (ppi : ℕ → ℚ) (s : ℕ) : ℕ → ℚ :=
  fun t => if t < s then ppi t + ppi (t + s) else ppi t

/-- The in-block tree-reduction loop `for (i = block_size/2; i > 0; i /= 2)`.
Fuel is instantiated with `block_size`, which bounds the number of halvings. -/
def pi_reduce_tree : ℕ → (ℕ → ℚ) → ℕ → (ℕ → ℚ)
  | 0, ppi, _ => ppi
  | fuel + 1, ppi, s =>
    if 0 < s then pi_reduce_tree fuel (pi_reduce_tree_step ppi s) (s / 2) else ppi

/-- The value `ppi[0]` held by block `b` after its tree reduction completes. -/
def pi_reduce_block_result (dx pi_init : ℚ) (iend grid_size block_size b : ℕ) : ℚ :=
  pi_reduce_tree block_size (pi_reduce_ppi dx pi_init iend grid_size block_size b)
    (block_size / 2) 0

/-- The atomic-add events issued by thread `t` of a block at kernel end:
only thread index 0 executes `RAJA::atomicAdd<RAJA::cuda_atomic>(dpi, ppi[0])`. -/
def pi_reduce_thread_adds (v : ℚ) (t : ℕ) : List ℚ := if t = 0 then [v] else []

/-- All atomic-add events issued by the threads of block `b`. -/
def pi_reduce_block_adds (dx pi_init : ℚ) (iend grid_size block_size b : ℕ) : List ℚ :=
  (List.range block_size).flatMap
    (pi_reduce_thread_adds (pi_reduce_block_result dx pi_init iend grid_size block_size b))

/-- All atomic-add events issued during one kernel launch, block by block. -/
def pi_reduce_launch_adds (dx pi_init : ℚ) (iend grid_size block_size : ℕ) : List ℚ :=
  (List.range grid_size).flatMap (pi_reduce_block_adds dx pi_init iend grid_size block_size)

/-- The device accumulator `*dpi` after reset to `pi_init` (the async memcpy),
one kernel launch, and stream synchronization: the reset value plus every
block's atomically added contribution. -/
def pi_reduce_dpi (dx pi_init : ℚ) (iend grid_size block_size : ℕ) : ℚ :=
  pi_init + (pi_reduce_launch_adds dx pi_init iend grid_size block_size).sum

/-- Modelled from the spec: `RAJA_DIVIDE_CEILING_INT` is provided by the
external RAJA library; the spec specifies the naive grid size as
`ceil(iend / block_size)`. -/
def RAJA_DIVIDE_CEILING_INT (a b : ℕ) : ℕ := (a + b - 1) / b

/-- The grid size chosen by `PI_REDUCE::runCudaVariantBlock` (line 85). -/
def runCudaVariantBlock_grid_size (iend block_size : ℕ) : ℕ :=
  RAJA_DIVIDE_CEILING_INT iend block_size

/-- The host value `m_pi` produced by one `Base_CUDA` repetition of
`PI_REDUCE::runCudaVariantBlock` (lines 82-96): reset, launch, copy back,
synchronize, then `m_pi *= 4.0`. -/
def runCudaVariantBlock_pi (dx pi_init : ℚ) (iend block_size : ℕ) : ℚ :=
  4 * pi_reduce_dpi dx pi_init iend (runCudaVariantBlock_grid_size iend block_size) block_size

/-- The grid size launched by `PI_REDUCE::runCudaVariantOccGS` (lines 151-152):
the naive grid size clamped by the occupancy cap `max_grid_size`, which is the
Occupancy Advisor's answer and is treated as an opaque parameter. -/
def runCudaVariantOccGS_grid_size (iend block_size max_grid_size : ℕ) : ℕ :=
  min (RAJA_DIVIDE_CEILING_INT iend block_size) max_grid_size

/-! ## PI_REDUCE: variant/tuning dispatcher (lines 191-250) -/

/-- The grid-sizing strategy of a tuning: plain (`runCudaVariantBlock`) or
occupancy-capped (`runCudaVariantOccGS`). -/
inductive GridStrategy
  | block
  | occgs
  deriving DecidableEq

/-- The variant ids relevant to the two dispatchers in the sources. -/
inductive VariantID
  | Base_Seq
  | Lambda_Seq
  | RAJA_Seq
  | Base_CUDA
  | Lambda_CUDA
  | RAJA_CUDA
  | Base_OpenMPTarget
  | RAJA_OpenMPTarget
  deriving DecidableEq

/-- The block-size validity filter
`run_params.numValidGPUBlockSize() == 0u || run_params.validGPUBlockSize(b)`. -/
def validBlockSizeOK (numValid : ℕ) (valid : ℕ → Bool) (b : ℕ) : Bool :=
  (numValid == 0) || valid b

/-- The `seq_for` body of `PI_REDUCE::runCudaVariant` (lines 197-222):
walks the block-size candidate list with running counter `t`; for each size
passing the filter it offers the plain tuning at `t` and the occupancy-capped
tuning at `t + 1`, executing the one whose slot equals `tune_idx`; sizes that
fail the filter are passed over entirely.  Returns the executed configurations
together with the final value of `t`. -/
def runCudaVariant_loop (numValid : ℕ) (valid : ℕ → Bool) (tune_idx : ℕ) :
    List ℕ → ℕ → List (ℕ × GridStrategy) × ℕ
  | [], t => ([], t)
  | b :: rest, t =>
    if validBlockSizeOK numValid valid b then
      ((if tune_idx = t then [(b, GridStrategy.block)] else []) ++
        ((if tune_idx = t + 1 then [(b, GridStrategy.occgs)] else []) ++
          (runCudaVariant_loop numValid valid tune_idx rest (t + 2)).1),
        (runCudaVariant_loop numValid valid tune_idx rest (t + 2)).2)
    else runCudaVariant_loop numValid valid tune_idx rest t

/-- The enumeration of tunings in declaration order: for each accepted block
size, the plain tuning then the occupancy-capped tuning. -/
def gpuTunings (numValid : ℕ) (valid : ℕ → Bool) (bs : List ℕ) :
    List (ℕ × GridStrategy) :=
  bs.flatMap (fun b =>
    if validBlockSizeOK numValid valid b then
      [(b, GridStrategy.block), (b, GridStrategy.occgs)]
    else [])

/-- The message streamed by `PI_REDUCE::runCudaVariant` for an unknown id. -/
def piUnknownMsg : String := "\n  PI_REDUCE : Unknown Cuda variant id = "

/-- The message streamed by `CONVECTION3DPA::runOpenMPTargetVariant`. -/
def convUnknownMsg : String := "\n CONVECTION3DPA : Unknown OpenMPTarget variant id = "

/-- The observable outcome of one dispatcher call: executed tunings, final
tuning counter, diagnostics written to the output stream, and whether the
call aborted the run. -/
structure RunOutput where
  executed : List (ℕ × GridStrategy)
  tFinal : ℕ
  messages : List (String × VariantID)
  fatal : Bool
  deriving DecidableEq

/-- `PI_REDUCE::runCudaVariant` (lines 191-230): dispatch for
`Base_CUDA`/`RAJA_CUDA`, otherwise stream a diagnostic and do nothing. -/
def runCudaVariant (vid : VariantID) (numValid : ℕ) (valid : ℕ → Bool)
    (tune_idx : ℕ) (bs : List ℕ) : RunOutput :=
  if vid = VariantID.Base_CUDA ∨ vid = VariantID.RAJA_CUDA then
    ⟨(runCudaVariant_loop numValid valid tune_idx bs 0).1,
      (runCudaVariant_loop numValid valid tune_idx bs 0).2, [], false⟩
  else
    ⟨[], 0, [(piUnknownMsg, vid)], false⟩

/-- `PI_REDUCE::setCudaTuningDefinitions` (lines 232-250): the tuning names
registered, in registration order. -/
def setCudaTuningDefinitions (numValid : ℕ) (valid : ℕ → Bool) (bs : List ℕ) :
    List String :=
  bs.flatMap (fun b =>
    if validBlockSizeOK numValid valid b then
      ["block_" ++ toString b, "occgs_" ++ toString b]
    else [])

/-- The human-readable name describing a tuning configuration. -/
def configName : ℕ × GridStrategy → String
  | (b, GridStrategy.block) => "block_" ++ toString b
  | (b, GridStrategy.occgs) => "occgs_" ++ toString b

/-- `CONVECTION3DPA::runOpenMPTargetVariant` (CONVECTION3DPA-OMPTarget.cpp
lines 22-31): both declared variants are empty stubs; an unknown id streams a
diagnostic; nothing aborts. -/
def CONVECTION3DPA_runOpenMPTargetVariant (vid : VariantID) : RunOutput :=
  if vid = VariantID.Base_OpenMPTarget then ⟨[], 0, [], false⟩
  else if vid = VariantID.RAJA_OpenMPTarget then ⟨[], 0, [], false⟩
  else ⟨[], 0, [(convUnknownMsg, vid)], false⟩

/-! ## POLYBENCH_FLOYD_WARSHALL: the recurrence kernel chain -/

/-- A device-resident square matrix of path distances. -/
abbrev Mat := ℕ → ℕ → ℚ

/-- Modelled from the spec: the macro `POLYBENCH_FLOYD_WARSHALL_BODY` lives in
POLYBENCH_FLOYD_WARSHALL.hpp, which is not among the sources; the spec gives
the per-cell relaxation `pin[i,j] = min(pin[i,j], pin[i,k] + pin[k,j])`. -/
def poly_floyd_warshall_body (pin : Mat) (k i j : ℕ) : ℚ :=
  min (pin i j) (pin i k + pin k j)

/-- The effect of one launch of the `poly_floyd_warshall` kernel (lines
295-307): every thread computes its `(i, j)`, and in-bounds threads apply the
relaxation; the launch reads the pre-launch matrix throughout. -/
def poly_floyd_warshall (pin : Mat) (N k : ℕ) : Mat :=
  fun i j => if i < N ∧ j < N then poly_floyd_warshall_body pin k i j else pin i j

/-- The matrix after the first `k` launches of one repetition. -/
def poly_floyd_warshall_chain (D : Mat) (N : ℕ) : ℕ → Mat
  | 0 => D
  | k + 1 => poly_floyd_warshall (poly_floyd_warshall_chain D N k) N k

/-- The host loop `for (k = 0; k < N; ++k) launch(k)` of
`POLYBENCH_FLOYD_WARSHALL::runCudaVariantImpl` (lines 337-348), enqueuing on
one in-order stream: returns the launch indices in issue order together with
the final matrix.  Fuel is instantiated with `N`, which covers all iterations
from `k = 0`. -/
def runCudaVariantImpl_loop (N : ℕ) : ℕ → ℕ → Mat → List ℕ × Mat
  | 0, _, M => ([], M)
  | fuel + 1, k, M =>
    if k < N then
      (k :: (runCudaVariantImpl_loop N fuel (k + 1) (poly_floyd_warshall M N k)).1,
        (runCudaVariantImpl_loop N fuel (k + 1) (poly_floyd_warshall M N k)).2)
    else ([], M)

/-- One timed repetition of the `Base_CUDA` variant: the whole launch chain. -/
def runCudaVariantImpl_rep (D : Mat) (N : ℕ) : List ℕ × Mat :=
  runCudaVariantImpl_loop N N 0 D

/-- The matrix cells touched by the thread computing `(i, j)` during launch
`k`: the guard `if (i < N && j < N)` makes the out-of-bounds thread touch
nothing; an in-bounds thread reads `pin[i,j]`, `pin[i,k]`, `pin[k,j]` and
writes `pout[i,j]`. -/
def poly_floyd_warshall_accesses (N k i j : ℕ) : List (ℕ × ℕ) :=
  if i < N ∧ j < N then [(i, j), (i, k), (k, j), (i, j)] else []

/-! ## Specification-side shortest paths -/

/-- The weight of the walk from `i` to `j` through the listed intermediate
vertices, measured in the entries of `D`. -/
def walkWeight (D : Mat) : ℕ → List ℕ → ℕ → ℚ
  | i, [], j => D i j
  | i, v :: vs, j => D i v + walkWeight D v vs j

/-- All lists of vertices drawn from `0, …, k-1` of length at most `n`. -/
def listsLE (k : ℕ) : ℕ → List (List ℕ)
  | 0 => [[]]
  | n + 1 => [] :: (List.range k).flatMap (fun v => (listsLE k n).map (v :: ·))

/-- All duplicate-free lists of vertices drawn from `0, …, k-1` (a
duplicate-free list over `k` vertices has length at most `k`). -/
def nodupLists (k : ℕ) : List (List ℕ) :=
  (listsLE k k).filter (fun l => decide l.Nodup)

/-- Modelled from the spec: the shortest-path value "using only intermediate
vertices ≤ k-1" — the minimum walk weight over duplicate-free sequences of
intermediate vertices below `k` (the direct edge is the empty sequence). -/
def shortestPathUpTo (D : Mat) (k i j : ℕ) : ℚ :=
  ((nodupLists k).map (fun vs => walkWeight D i vs j)).foldr min (D i j)

/-- The textbook Floyd-Warshall recurrence on `D`, used as the bridge between
the launch chain and the shortest-path specification. -/
def floydAux (D : Mat) : ℕ → ℕ → ℕ → ℚ
  | 0, i, j => D i j
  | k + 1, i, j => min (floydAux D k i j) (floydAux D k i k + floydAux D k k j)

/-- A concrete matrix with a negative cycle: 0 on the diagonal, -1 elsewhere. -/
def matNeg : Mat := fun i j => if i = j then 0 else -1

/-- A concrete non-negative matrix: 0 on the diagonal, 1 elsewhere. -/
def matUnit : Mat := fun i j => if i = j then 0 else 1

/-! ## Summation helpers -/

lemma list_range_map_sum (f : ℕ → ℚ) : ∀ n, ((List.range n).map f).sum = ∑ i in Finset.range n, f i := by
  intro n
  induction n with
  | zero => simp
  | succ n ih =>
    rw [List.range_succ, List.map_append, List.sum_append, Finset.sum_range_succ, ih]
    simp

lemma sum_range_add (f : ℕ → ℚ) (a : ℕ) :
    ∀ b, ∑ i in Finset.range (a + b), f i
      = (∑ i in Finset.range a, f i) + ∑ i in Finset.range b, f (a + i) := by
  intro b
  induction b with
  | zero => simp
  | succ b ih =>
    have h : a + (b + 1) = (a + b) + 1 := rfl
    rw [h, Finset.sum_range_succ, Finset.sum_range_succ, ih, add_assoc]

/-! ## PI_REDUCE kernel lemmas -/

lemma pi_filter_empty (iend stride i : ℕ) (h : iend ≤ i) :
    (Finset.range iend).filter (fun j => i ≤ j ∧ (j - i) % stride = 0) = ∅ := by
  apply Finset.filter_eq_empty_iff.mpr
  intro j hj
  rw [Finset.mem_range] at hj
  rintro ⟨h1, -⟩
  omega

lemma pi_reduce_loop_sum (dx : ℚ) (iend stride : ℕ) (hs : 0 < stride) :
    ∀ fuel i acc, iend ≤ i + fuel →
      pi_reduce_loop dx iend stride fuel i acc
        = acc + ∑ j in (Finset.range iend).filter
            (fun j => i ≤ j ∧ (j - i) % stride = 0), pi_reduce_term dx j := by
  intro fuel
  induction fuel with
  | zero =>
    intro i acc h
    rw [pi_reduce_loop, pi_filter_empty iend stride i (by omega), Finset.sum_empty, add_zero]
  | succ fuel ih =>
    intro i acc h
    by_cases hi : i < iend
    · rw [pi_reduce_loop, if_pos hi, ih (i + stride) _ (by omega)]
      have hnot : i ∉ (Finset.range iend).filter
          (fun j => i + stride ≤ j ∧ (j - (i + stride)) % stride = 0) := by
        simp only [Finset.mem_filter, Finset.mem_range]
        rintro ⟨-, h1, -⟩
        omega
      have hsplit : (Finset.range iend).filter (fun j => i ≤ j ∧ (j - i) % stride = 0)
          = insert i ((Finset.range iend).filter
              (fun j => i + stride ≤ j ∧ (j - (i + stride)) % stride = 0)) := by
        ext j
        simp only [Finset.mem_insert, Finset.mem_filter, Finset.mem_range]
        constructor
        · rintro ⟨hj, hij, hmod⟩
          rcases Nat.eq_or_lt_of_le hij with heq | hlt
          · exact Or.inl heq.symm
          · right
            obtain ⟨c, hc⟩ := Nat.dvd_of_mod_eq_zero hmod
            rcases c with - | c
            · simp only [Nat.mul_zero] at hc
              omega
            · rw [Nat.mul_succ] at hc
              refine ⟨hj, by omega, ?_⟩
              have hm : j - (i + stride) = stride * c := by omega
              rw [hm]
              exact Nat.mul_mod_right _ _
        · rintro (rfl | ⟨hj, h1, h2⟩)
          · exact ⟨hi, Nat.le_refl _, by simp⟩
          · refine ⟨hj, by omega, ?_⟩
            obtain ⟨c, hc⟩ := Nat.dvd_of_mod_eq_zero h2
            have hm : j - i = stride * (c + 1) := by rw [Nat.mul_succ]; omega
            rw [hm]
            exact Nat.mul_mod_right _ _
      rw [hsplit, Finset.sum_insert hnot]
      ring
    · rw [pi_reduce_loop, if_neg hi, pi_filter_empty iend stride i (by omega),
        Finset.sum_empty, add_zero]

lemma pi_cover (dx : ℚ) (iend stride : ℕ) (hs : 0 < stride) :
    ∑ i0 in Finset.range stride, ∑ j in (Finset.range iend).filter
        (fun j => i0 ≤ j ∧ (j - i0) % stride = 0), pi_reduce_term dx j
      = ∑ j in Finset.range iend, pi_reduce_term dx j := by
  have key : ∀ j, j < iend → ∀ i0, i0 < stride →
      ((i0 ≤ j ∧ (j - i0) % stride = 0) ↔ i0 = j % stride) := by
    intro j _ i0 hi0
    constructor
    · rintro ⟨h1, h2⟩
      obtain ⟨c, hc⟩ := Nat.dvd_of_mod_eq_zero h2
      have hj : j = i0 + stride * c := by omega
      rw [hj, Nat.add_mul_mod_self_left]
      exact (Nat.mod_eq_of_lt hi0).symm
    · rintro rfl
      refine ⟨Nat.mod_le j stride, ?_⟩
      have h := Nat.div_add_mod j stride
      have h2 : j - j % stride = stride * (j / stride) := by omega
      rw [h2]
      exact Nat.mul_mod_right _ _
  calc ∑ i0 in Finset.range stride, ∑ j in (Finset.range iend).filter
          (fun j => i0 ≤ j ∧ (j - i0) % stride = 0), pi_reduce_term dx j
      = ∑ i0 in Finset.range stride, ∑ j in Finset.range iend,
          if i0 ≤ j ∧ (j - i0) % stride = 0 then pi_reduce_term dx j else 0 := by
        exact Finset.sum_congr rfl fun i0 _ => Finset.sum_filter _ _
    _ = ∑ j in Finset.range iend, ∑ i0 in Finset.range stride,
          if i0 ≤ j ∧ (j - i0) % stride = 0 then pi_reduce_term dx j else 0 :=
        Finset.sum_comm
    _ = ∑ j in Finset.range iend, pi_reduce_term dx j := by
        refine Finset.sum_congr rfl fun j hj => ?_
        rw [Finset.mem_range] at hj
        have hcong : ∀ i0 ∈ Finset.range stride,
            (if i0 ≤ j ∧ (j - i0) % stride = 0 then pi_reduce_term dx j else 0)
              = (if i0 = j % stride then pi_reduce_term dx j else 0) := by
          intro i0 hi0
          rw [Finset.mem_range] at hi0
          exact if_congr (key j hj i0 hi0) rfl rfl
        rw [Finset.sum_congr rfl hcong, Finset.sum_ite_eq' (Finset.range stride) (j % stride),
          if_pos (Finset.mem_range.mpr (Nat.mod_lt j hs))]

lemma sum_blocks_threads (f : ℕ → ℚ) (B : ℕ) :
    ∀ G, ∑ b in Finset.range G, ∑ t in Finset.range B, f (b * B + t)
      = ∑ i in Finset.range (G * B), f i := by
  intro G
  induction G with
  | zero => simp
  | succ G ih =>
    rw [Finset.sum_range_succ, ih, Nat.succ_mul, sum_range_add]

lemma pi_reduce_tree_s0 (ppi : ℕ → ℚ) : ∀ fuel, pi_reduce_tree fuel ppi 0 = ppi := by
  intro fuel
  cases fuel <;> simp [pi_reduce_tree]

lemma pi_reduce_tree_sum (m : ℕ) : ∀ fuel (ppi : ℕ → ℚ), m + 1 ≤ fuel →
    pi_reduce_tree fuel ppi (2 ^ m) 0 = ∑ t in Finset.range (2 ^ (m + 1)), ppi t := by
  induction m with
  | zero =>
    intro fuel ppi h
    obtain ⟨f, rfl⟩ : ∃ f, fuel = f + 1 := ⟨fuel - 1, by omega⟩
    simp only [pi_reduce_tree, pow_zero]
    rw [if_pos (by norm_num : (0:ℕ) < 1), show (1:ℕ) / 2 = 0 from rfl, pi_reduce_tree_s0]
    simp [pi_reduce_tree_step, Finset.sum_range_succ]
  | succ m ih =>
    intro fuel ppi h
    obtain ⟨f, rfl⟩ : ∃ f, fuel = f + 1 := ⟨fuel - 1, by omega⟩
    simp only [pi_reduce_tree]
    rw [if_pos (pow_pos (by norm_num : (0:ℕ) < 2) (m + 1))]
    have hdiv : 2 ^ (m + 1) / 2 = 2 ^ m := by
      rw [pow_succ]
      exact Nat.mul_div_cancel _ (by norm_num)
    rw [hdiv, ih f _ (by omega)]
    have hstep : ∀ t ∈ Finset.range (2 ^ (m + 1)),
        pi_reduce_tree_step ppi (2 ^ (m + 1)) t = ppi t + ppi (t + 2 ^ (m + 1)) := by
      intro t ht
      rw [Finset.mem_range] at ht
      simp [pi_reduce_tree_step, ht]
    rw [Finset.sum_congr rfl hstep, Finset.sum_add_distrib]
    have hsplitpow : (2:ℕ) ^ (m + 1 + 1) = 2 ^ (m + 1) + 2 ^ (m + 1) := by
      rw [pow_succ, Nat.mul_two]
    rw [hsplitpow, sum_range_add]
    congr 1
    exact Finset.sum_congr rfl fun t _ => by rw [Nat.add_comm]

lemma pi_reduce_block_result_sum (dx pi_init : ℚ) (iend G e b : ℕ) :
    pi_reduce_block_result dx pi_init iend G (2 ^ e) b
      = ∑ t in Finset.range (2 ^ e), pi_reduce_ppi dx pi_init iend G (2 ^ e) b t := by
  cases e with
  | zero => simp [pi_reduce_block_result, pi_reduce_tree_s0]
  | succ m =>
    rw [pi_reduce_block_result]
    have hdiv : 2 ^ (m + 1) / 2 = 2 ^ m := by
      rw [pow_succ]
      exact Nat.mul_div_cancel _ (by norm_num)
    rw [hdiv]
    have h1 : m < 2 ^ m := Nat.lt_two_pow m
    have h2 : (2:ℕ) ^ m ≤ 2 ^ (m + 1) := Nat.pow_le_pow_right (by norm_num) (by omega)
    exact pi_reduce_tree_sum m (2 ^ (m + 1)) _ (by omega)

lemma flatMap_thread_adds (v : ℚ) :
    ∀ n, (List.range (n + 1)).flatMap (pi_reduce_thread_adds v) = [v] := by
  intro n
  induction n with
  | zero => simp [List.range_succ, pi_reduce_thread_adds]
  | succ n ih =>
    rw [List.range_succ, List.flatMap_append, ih]
    simp [pi_reduce_thread_adds]

lemma pi_reduce_block_adds_eq (dx pi_init : ℚ) (iend G B b : ℕ) (hB : 0 < B) :
    pi_reduce_block_adds dx pi_init iend G B b
      = [pi_reduce_block_result dx pi_init iend G B b] := by
  rw [pi_reduce_block_adds]
  obtain ⟨n, rfl⟩ : ∃ n, B = n + 1 := ⟨B - 1, by omega⟩
  exact flatMap_thread_adds _ n

lemma pi_reduce_launch_adds_eq (dx pi_init : ℚ) (iend G B : ℕ) (hB : 0 < B) :
    pi_reduce_launch_adds dx pi_init iend G B
      = (List.range G).map (pi_reduce_block_result dx pi_init iend G B) := by
  rw [pi_reduce_launch_adds]
  have h : ∀ l : List ℕ, l.flatMap (pi_reduce_block_adds dx pi_init iend G B)
      = l.map (pi_reduce_block_result dx pi_init iend G B) := by
    intro l
    induction l with
    | nil => rfl
    | cons x l ih =>
      rw [List.flatMap_cons, ih, pi_reduce_block_adds_eq dx pi_init iend G B x hB,
        List.map_cons, List.singleton_append]
  exact h _

lemma pi_reduce_dpi_sum (dx pi_init : ℚ) (iend G B : ℕ) (hB : 0 < B) :
    pi_reduce_dpi dx pi_init iend G B
      = pi_init + ∑ b in Finset.range G, pi_reduce_block_result dx pi_init iend G B b := by
  rw [pi_reduce_dpi, pi_reduce_launch_adds_eq dx pi_init iend G B hB, list_range_map_sum]

lemma pi_reduce_dpi_formula (dx pi_init : ℚ) (iend e G : ℕ) (hG : 0 < G) :
    pi_reduce_dpi dx pi_init iend G (2 ^ e)
      = ((G * 2 ^ e + 1 : ℕ) : ℚ) * pi_init + ∑ i in Finset.range iend, pi_reduce_term dx i := by
  have hB : 0 < 2 ^ e := pow_pos (by norm_num) e
  have hstride : 0 < G * 2 ^ e := Nat.mul_pos hG hB
  rw [pi_reduce_dpi_sum dx pi_init iend G (2 ^ e) hB]
  have h1 : ∀ b ∈ Finset.range G, pi_reduce_block_result dx pi_init iend G (2 ^ e) b
      = ∑ t in Finset.range (2 ^ e), pi_reduce_ppi dx pi_init iend G (2 ^ e) b t :=
    fun b _ => pi_reduce_block_result_sum dx pi_init iend G e b
  rw [Finset.sum_congr rfl h1]
  simp only [pi_reduce_ppi]
  rw [sum_blocks_threads
    (fun i0 => pi_reduce_loop dx iend (G * 2 ^ e) iend i0 pi_init) (2 ^ e) G]
  have h2 : ∀ i0 ∈ Finset.range (G * 2 ^ e),
      pi_reduce_loop dx iend (G * 2 ^ e) iend i0 pi_init
        = pi_init + ∑ j in (Finset.range iend).filter
            (fun j => i0 ≤ j ∧ (j - i0) % (G * 2 ^ e) = 0), pi_reduce_term dx j :=
    fun i0 _ => pi_reduce_loop_sum dx iend (G * 2 ^ e) hstride iend i0 pi_init (by omega)
  rw [Finset.sum_congr rfl h2, Finset.sum_add_distrib, Finset.sum_const, Finset.card_range,
    nsmul_eq_mul, pi_cover dx iend (G * 2 ^ e) hstride]
  push_cast
  ring

lemma pi_reduce_loop_linear (dx : ℚ) (iend stride i : ℕ) (hs : 0 < stride)
    (acc : ℚ) :
    pi_reduce_loop dx iend stride iend i acc = acc + pi_reduce_loop dx iend stride iend i 0 := by
  rw [pi_reduce_loop_sum dx iend stride hs iend i acc (by omega),
    pi_reduce_loop_sum dx iend stride hs iend i 0 (by omega), zero_add]

/-- C1: for every `iend ≥ 0`, `dx > 0` and `pi_init`, one repetition of the
`Base_CUDA` block variant (reset, a single `pi_reduce` launch with the grid
size `ceil(iend / block_size)`, synchronize) leaves the device accumulator
holding the full midpoint-rule sum `∑_{i<iend} dx / (1 + x_i²)` combined with
the initial-value contribution `(grid·block + 1) · pi_init` (one copy per
launched thread plus the reset copy), and the host multiplies the accumulator
by 4 to produce `m_pi`.  Block sizes are the powers of two `2^e` swept by the
tuning list. -/
theorem pi_reduce_single_launch_correct (dx pi_init : ℚ) (iend e : ℕ) (hdx : 0 < dx) :
    pi_reduce_dpi dx pi_init iend (runCudaVariantBlock_grid_size iend (2 ^ e)) (2 ^ e)
        = ((runCudaVariantBlock_grid_size iend (2 ^ e) * 2 ^ e + 1 : ℕ) : ℚ) * pi_init
            + ∑ i in Finset.range iend, pi_reduce_term dx i
      ∧ runCudaVariantBlock_pi dx pi_init iend (2 ^ e)
        = 4 * (((runCudaVariantBlock_grid_size iend (2 ^ e) * 2 ^ e + 1 : ℕ) : ℚ) * pi_init
            + ∑ i in Finset.range iend, pi_reduce_term dx i) := by
  have hB : 0 < 2 ^ e := pow_pos (by norm_num) e
  by_cases hi : iend = 0
  · subst hi
    have hg : runCudaVariantBlock_grid_size 0 (2 ^ e) = 0 := by
      rw [runCudaVariantBlock_grid_size, RAJA_DIVIDE_CEILING_INT]
      exact Nat.div_eq_of_lt (by omega)
    rw [runCudaVariantBlock_pi, hg]
    simp [pi_reduce_dpi, pi_reduce_launch_adds]
  · have hG : 0 < runCudaVariantBlock_grid_size iend (2 ^ e) := by
      rw [runCudaVariantBlock_grid_size, RAJA_DIVIDE_CEILING_INT]
      have h := (Nat.one_le_div_iff hB).mpr (show 2 ^ e ≤ iend + 2 ^ e - 1 by omega)
      omega
    have h := pi_reduce_dpi_formula dx pi_init iend e _ hG
    exact ⟨h, by rw [runCudaVariantBlock_pi, h]⟩

/-- Witness for C1 at `dx = 1`, `pi_init = 1/2`, `iend = 2`, block size `2^0`. -/
theorem pi_reduce_single_launch_correct_witness :
    (0:ℚ) < 1
      ∧ (pi_reduce_dpi 1 (1/2) 2 (runCudaVariantBlock_grid_size 2 (2 ^ 0)) (2 ^ 0)
            = ((runCudaVariantBlock_grid_size 2 (2 ^ 0) * 2 ^ 0 + 1 : ℕ) : ℚ) * (1/2)
                + ∑ i in Finset.range 2, pi_reduce_term 1 i
          ∧ runCudaVariantBlock_pi 1 (1/2) 2 (2 ^ 0)
            = 4 * (((runCudaVariantBlock_grid_size 2 (2 ^ 0) * 2 ^ 0 + 1 : ℕ) : ℚ) * (1/2)
                + ∑ i in Finset.range 2, pi_reduce_term 1 i)) :=
  ⟨by norm_num, pi_reduce_single_launch_correct 1 (1/2) 2 0 (by norm_num)⟩

/-- C3 counterexample: at `iend = 0`, `pi_init = 1`, block size 2, the launch
has `grid · block = 0` threads, so the claimed accumulator value
`(grid·block)·pi_init + midpoint terms` is `0`, but the accumulator actually
reads back `1`: the reset value `pi_init` is counted in addition to the
per-thread copies, so the multiplicity is `grid·block + 1`, not `grid·block`. -/
theorem pi_reduce_seed_count_counterexample :
    pi_reduce_dpi 1 1 0 (runCudaVariantBlock_grid_size 0 (2 ^ 1)) (2 ^ 1)
      ≠ ((runCudaVariantBlock_grid_size 0 (2 ^ 1) * 2 ^ 1 : ℕ) : ℚ) * 1
          + ∑ i in Finset.range 0, pi_reduce_term 1 i := by
  have hg : runCudaVariantBlock_grid_size 0 (2 ^ 1) = 0 := by
    rw [runCudaVariantBlock_grid_size, RAJA_DIVIDE_CEILING_INT]
    norm_num
  rw [hg]
  norm_num [pi_reduce_dpi, pi_reduce_launch_adds]

/-- C3 as amended: every thread of the launch seeds its private shared-memory
cell with the same full `pi_init` (each cell equals `pi_init` plus the same
thread's zero-seeded partial sum), so after a launch with `G > 0` blocks of
`2^e` threads the global accumulator counts `pi_init` exactly once per
launched thread plus once more from the accumulator's reset value —
`G·2^e + 1` copies — in addition to the midpoint-rule terms. -/
theorem pi_reduce_seed_count (dx pi_init : ℚ) (iend e G : ℕ) (hG : 0 < G) :
    (∀ b t, pi_reduce_ppi dx pi_init iend G (2 ^ e) b t
        = pi_init + pi_reduce_ppi dx 0 iend G (2 ^ e) b t)
      ∧ pi_reduce_dpi dx pi_init iend G (2 ^ e)
        = ((G * 2 ^ e + 1 : ℕ) : ℚ) * pi_init
            + ∑ i in Finset.range iend, pi_reduce_term dx i := by
  have hB : 0 < 2 ^ e := pow_pos (by norm_num) e
  have hstride : 0 < G * 2 ^ e := Nat.mul_pos hG hB
  refine ⟨fun b t => ?_, pi_reduce_dpi_formula dx pi_init iend e G hG⟩
  rw [pi_reduce_ppi, pi_reduce_ppi]
  exact pi_reduce_loop_linear dx iend (G * 2 ^ e) (b * 2 ^ e + t) hstride pi_init

/-- Witness for C3 (amended) at `dx = 1`, `pi_init = 1`, `iend = 1`, one block
of two threads. -/
theorem pi_reduce_seed_count_witness :
    (∀ b t, pi_reduce_ppi 1 1 1 1 (2 ^ 1) b t = 1 + pi_reduce_ppi 1 0 1 1 (2 ^ 1) b t)
      ∧ pi_reduce_dpi 1 1 1 1 (2 ^ 1)
        = ((1 * 2 ^ 1 + 1 : ℕ) : ℚ) * 1 + ∑ i in Finset.range 1, pi_reduce_term 1 i :=
  pi_reduce_seed_count 1 1 1 1 1 (by norm_num)

/-- C4: in one launch with a positive block size, every update of the global
accumulator between the reset and the final read is an atomic-add event
(threads with index other than 0 emit no event, and each block's threads emit
exactly one event — the block's tree-reduction total), the launch emits
exactly one event per block, and the final accumulator value is the reset
value plus the events' sum independently of the interleaving order in which
the atomic adds commit. -/
theorem pi_reduce_atomic_once (dx pi_init : ℚ) (iend G B : ℕ) (hB : 0 < B) :
    (∀ v t, t ≠ 0 → pi_reduce_thread_adds v t = [])
      ∧ (∀ b, pi_reduce_block_adds dx pi_init iend G B b
          = [pi_reduce_block_result dx pi_init iend G B b])
      ∧ (pi_reduce_launch_adds dx pi_init iend G B).length = G
      ∧ ∀ l : List ℚ, l.Perm (pi_reduce_launch_adds dx pi_init iend G B) →
          pi_init + l.sum = pi_reduce_dpi dx pi_init iend G B := by
  refine ⟨fun v t ht => by simp [pi_reduce_thread_adds, ht],
    fun b => pi_reduce_block_adds_eq dx pi_init iend G B b hB, ?_, ?_⟩
  · rw [pi_reduce_launch_adds_eq dx pi_init iend G B hB, List.length_map, List.length_range]
  · intro l hl
    rw [pi_reduce_dpi, hl.sum_eq]

/-- Witness for C4 with one block of two threads, applying the order-independence
part to the identity permutation. -/
theorem pi_reduce_atomic_once_witness :
    pi_reduce_block_adds 1 0 1 1 2 0 = [pi_reduce_block_result 1 0 1 1 2 0]
      ∧ (0:ℚ) + (pi_reduce_launch_adds 1 0 1 1 2).sum = pi_reduce_dpi 1 0 1 1 2 :=
  ⟨(pi_reduce_atomic_once 1 0 1 1 2 (by norm_num)).2.1 0,
    (pi_reduce_atomic_once 1 0 1 1 2 (by norm_num)).2.2.2 _ (List.Perm.refl _)⟩

/-- C6: the occupancy-tuned variant launches exactly
`min(ceil(iend/block_size), max_grid_size)` blocks, which never exceeds the
naive grid size `ceil(iend/block_size)`. -/
theorem runCudaVariantOccGS_grid_size_le (iend block_size max_grid_size : ℕ) :
    runCudaVariantOccGS_grid_size iend block_size max_grid_size
        = min (RAJA_DIVIDE_CEILING_INT iend block_size) max_grid_size
      ∧ runCudaVariantOccGS_grid_size iend block_size max_grid_size
        ≤ RAJA_DIVIDE_CEILING_INT iend block_size :=
  ⟨rfl, min_le_left _ _⟩

/-- C7: with `iend = 0` the block variant launches zero blocks, so the kernel
issues no atomic adds (no midpoint-rule iteration runs), and the value read
back from the device accumulator is exactly the initial value `pi_init`,
before the final multiplication by 4. -/
theorem pi_reduce_empty_domain (dx pi_init : ℚ) (e : ℕ) :
    pi_reduce_launch_adds dx pi_init 0 (runCudaVariantBlock_grid_size 0 (2 ^ e)) (2 ^ e) = []
      ∧ pi_reduce_dpi dx pi_init 0 (runCudaVariantBlock_grid_size 0 (2 ^ e)) (2 ^ e)
        = pi_init := by
  have hg : runCudaVariantBlock_grid_size 0 (2 ^ e) = 0 := by
    have hB : 0 < 2 ^ e := pow_pos (by norm_num) e
    rw [runCudaVariantBlock_grid_size, RAJA_DIVIDE_CEILING_INT]
    exact Nat.div_eq_of_lt (by omega)
  rw [hg]
  constructor
  · simp [pi_reduce_launch_adds]
  · simp [pi_reduce_dpi, pi_reduce_launch_adds]

/-! ## Floyd-Warshall lemmas -/

lemma mem_listsLE (k : ℕ) : ∀ n (l : List ℕ),
    l ∈ listsLE k n ↔ (∀ v ∈ l, v < k) ∧ l.length ≤ n := by
  intro n
  induction n with
  | zero =>
    intro l
    simp only [listsLE, List.mem_singleton]
    constructor
    · rintro rfl
      simp
    · rintro ⟨-, h2⟩
      exact List.length_eq_zero.mp (by omega)
  | succ n ih =>
    intro l
    simp only [listsLE, List.mem_cons, List.mem_flatMap, List.mem_map, List.mem_range]
    constructor
    · rintro (rfl | ⟨v, hv, l', hl', rfl⟩)
      · simp
      · obtain ⟨hb, hlen⟩ := (ih l').mp hl'
        refine ⟨?_, by simp only [List.length_cons]; omega⟩
        intro w hw
        rcases List.mem_cons.mp hw with rfl | hw'
        · exact hv
        · exact hb w hw'
    · rintro ⟨hb, hlen⟩
      cases l with
      | nil => exact Or.inl rfl
      | cons v l' =>
        refine Or.inr ⟨v, hb v (List.mem_cons_self v l'), l', ?_, rfl⟩
        refine (ih l').mpr ⟨fun w hw => hb w (List.mem_cons_of_mem v hw), ?_⟩
        simp only [List.length_cons] at hlen
        omega

lemma nodup_length_le (k : ℕ) (l : List ℕ) (hnd : l.Nodup) (hb : ∀ v ∈ l, v < k) :
    l.length ≤ k := by
  have h1 : l.toFinset ⊆ Finset.range k := by
    intro v hv
    rw [List.mem_toFinset] at hv
    exact Finset.mem_range.mpr (hb v hv)
  have h2 := Finset.card_le_card h1
  rw [List.toFinset_card_of_nodup hnd, Finset.card_range] at h2
  exact h2

lemma mem_nodupLists (k : ℕ) (l : List ℕ) :
    l ∈ nodupLists k ↔ l.Nodup ∧ ∀ v ∈ l, v < k := by
  rw [nodupLists, List.mem_filter, mem_listsLE]
  constructor
  · rintro ⟨⟨hb, -⟩, hnd⟩
    exact ⟨by simpa using hnd, hb⟩
  · rintro ⟨hnd, hb⟩
    exact ⟨⟨hb, nodup_length_le k l hnd hb⟩, by simpa using hnd⟩

lemma floydAux_nonneg (D : Mat) (hD : ∀ a b, 0 ≤ D a b) :
    ∀ k i j, 0 ≤ floydAux D k i j := by
  intro k
  induction k with
  | zero => exact hD
  | succ m ih =>
    intro i j
    exact le_min (ih i j) (add_nonneg (ih i m) (ih m j))

lemma floydAux_le_base (D : Mat) : ∀ k i j, floydAux D k i j ≤ D i j := by
  intro k
  induction k with
  | zero => intro i j; exact le_refl _
  | succ m ih =>
    intro i j
    exact le_trans (min_le_left _ _) (ih i j)

lemma floydAux_fixed (D : Mat) (hD : ∀ a b, 0 ≤ D a b) (m j : ℕ) :
    floydAux D (m + 1) m j = floydAux D m m j := by
  show min (floydAux D m m j) (floydAux D m m m + floydAux D m m j) = floydAux D m m j
  exact min_eq_left (le_add_of_nonneg_left (floydAux_nonneg D hD m m m))

lemma floydAux_triangle (D : Mat) (hD : ∀ a b, 0 ≤ D a b) :
    ∀ k v, v < k → ∀ i j, floydAux D k i j ≤ D i v + floydAux D k v j := by
  intro k
  induction k with
  | zero => intro v hv i j; exact absurd hv (Nat.not_lt_zero v)
  | succ m ih =>
    intro v hv i j
    rcases Nat.lt_succ_iff_lt_or_eq.mp hv with hvm | rfl
    · show min (floydAux D m i j) (floydAux D m i m + floydAux D m m j)
        ≤ D i v + floydAux D (m + 1) v j
      have hvj : floydAux D (m + 1) v j
          = min (floydAux D m v j) (floydAux D m v m + floydAux D m m j) := rfl
      rcases le_total (floydAux D m v j) (floydAux D m v m + floydAux D m m j) with h | h
      · rw [hvj, min_eq_left h]
        exact le_trans (min_le_left _ _) (ih v hvm i j)
      · rw [hvj, min_eq_right h]
        have h1 := ih v hvm i m
        calc min (floydAux D m i j) (floydAux D m i m + floydAux D m m j)
            ≤ floydAux D m i m + floydAux D m m j := min_le_right _ _
          _ ≤ (D i v + floydAux D m v m) + floydAux D m m j := by linarith
          _ = D i v + (floydAux D m v m + floydAux D m m j) := by ring
    · show min (floydAux D v i j) (floydAux D v i v + floydAux D v v j)
        ≤ D i v + floydAux D (v + 1) v j
      rw [floydAux_fixed D hD v j]
      calc min (floydAux D v i j) (floydAux D v i v + floydAux D v v j)
          ≤ floydAux D v i v + floydAux D v v j := min_le_right _ _
        _ ≤ D i v + floydAux D v v j :=
            add_le_add_right (floydAux_le_base D v i v) _

lemma walkWeight_append (D : Mat) : ∀ (xs : List ℕ) i (v : ℕ) ys j,
    walkWeight D i (xs ++ v :: ys) j = walkWeight D i xs v + walkWeight D v ys j := by
  intro xs
  induction xs with
  | nil => intro i v ys j; rfl
  | cons x xs ih =>
    intro i v ys j
    show D i x + walkWeight D x (xs ++ v :: ys) j
      = (D i x + walkWeight D x xs v) + walkWeight D v ys j
    rw [ih]
    ring

lemma walkWeight_nonneg (D : Mat) (hD : ∀ a b, 0 ≤ D a b) :
    ∀ (vs : List ℕ) i j, 0 ≤ walkWeight D i vs j := by
  intro vs
  induction vs with
  | nil => intro i j; exact hD i j
  | cons v vs ih => intro i j; exact add_nonneg (hD i v) (ih v j)

lemma floydAux_le_walk (D : Mat) (hD : ∀ a b, 0 ≤ D a b) (k : ℕ) :
    ∀ (vs : List ℕ) i j, (∀ v ∈ vs, v < k) → floydAux D k i j ≤ walkWeight D i vs j := by
  intro vs
  induction vs with
  | nil => intro i j _; exact floydAux_le_base D k i j
  | cons v vs ih =>
    intro i j hb
    have hv : v < k := hb v (List.mem_cons_self v vs)
    show floydAux D k i j ≤ D i v + walkWeight D v vs j
    calc floydAux D k i j ≤ D i v + floydAux D k v j := floydAux_triangle D hD k v hv i j
      _ ≤ D i v + walkWeight D v vs j :=
          add_le_add_left (ih v j (fun w hw => hb w (List.mem_cons_of_mem v hw))) _

lemma floydAux_achieved (D : Mat) : ∀ k i j, ∃ vs : List ℕ,
    (∀ v ∈ vs, v < k) ∧ floydAux D k i j = walkWeight D i vs j := by
  intro k
  induction k with
  | zero => intro i j; exact ⟨[], by simp, rfl⟩
  | succ m ih =>
    intro i j
    rcases le_total (floydAux D m i j) (floydAux D m i m + floydAux D m m j) with h | h
    · obtain ⟨vs, hb, heq⟩ := ih i j
      refine ⟨vs, fun v hv => Nat.lt_succ_of_lt (hb v hv), ?_⟩
      show min (floydAux D m i j) (floydAux D m i m + floydAux D m m j) = _
      rw [min_eq_left h, heq]
    · obtain ⟨vs1, hb1, h1⟩ := ih i m
      obtain ⟨vs2, hb2, h2⟩ := ih m j
      refine ⟨vs1 ++ m :: vs2, ?_, ?_⟩
      · intro v hv
        rcases List.mem_append.mp hv with h' | h'
        · exact Nat.lt_succ_of_lt (hb1 v h')
        · rcases List.mem_cons.mp h' with rfl | h''
          · exact Nat.lt_succ_self v
          · exact Nat.lt_succ_of_lt (hb2 v h'')
      · show min (floydAux D m i j) (floydAux D m i m + floydAux D m m j) = _
        rw [min_eq_right h, walkWeight_append D vs1 i m vs2 j, h1, h2]

lemma not_nodup_split : ∀ l : List ℕ, ¬ l.Nodup →
    ∃ a : List ℕ, ∃ v : ℕ, ∃ b c : List ℕ, l = a ++ v :: (b ++ v :: c) := by
  intro l
  induction l with
  | nil => intro h; exact absurd List.nodup_nil h
  | cons x t ih =>
    intro h
    by_cases hx : x ∈ t
    · obtain ⟨s, u, rfl⟩ := List.append_of_mem hx
      exact ⟨[], x, s, u, rfl⟩
    · have ht : ¬ t.Nodup := fun hnd => h (List.nodup_cons.mpr ⟨hx, hnd⟩)
      obtain ⟨a, v, b, c, rfl⟩ := ih ht
      exact ⟨x :: a, v, b, c, rfl⟩

lemma exists_nodup_walk (D : Mat) (hD : ∀ a b, 0 ≤ D a b) (k : ℕ) :
    ∀ n (vs : List ℕ) i j, vs.length ≤ n → (∀ v ∈ vs, v < k) →
      ∃ ws : List ℕ, ws.Nodup ∧ (∀ v ∈ ws, v < k) ∧
        walkWeight D i ws j ≤ walkWeight D i vs j := by
  intro n
  induction n with
  | zero =>
    intro vs i j hlen hb
    have hnil : vs = [] := List.length_eq_zero.mp (by omega)
    subst hnil
    exact ⟨[], List.nodup_nil, by simp, le_refl _⟩
  | succ n ih =>
    intro vs i j hlen hb
    by_cases hnd : vs.Nodup
    · exact ⟨vs, hnd, hb, le_refl _⟩
    · obtain ⟨a, v, b, c, rfl⟩ := not_nodup_split vs hnd
      have hlen2 : (a ++ v :: c).length ≤ n := by
        simp only [List.length_append, List.length_cons] at hlen ⊢
        omega
      have hb2 : ∀ w ∈ a ++ v :: c, w < k := by
        intro w hw
        apply hb
        rcases List.mem_append.mp hw with h' | h'
        · exact List.mem_append.mpr (Or.inl h')
        · rcases List.mem_cons.mp h' with rfl | h''
          · exact List.mem_append.mpr (Or.inr (List.mem_cons_self _ _))
          · exact List.mem_append.mpr (Or.inr (List.mem_cons_of_mem _
              (List.mem_append.mpr (Or.inr (List.mem_cons_of_mem _ h'')))))
      obtain ⟨ws, h1, h2, h3⟩ := ih (a ++ v :: c) i j hlen2 hb2
      refine ⟨ws, h1, h2, le_trans h3 ?_⟩
      rw [walkWeight_append D a i v c j, walkWeight_append D a i v (b ++ v :: c) j,
        walkWeight_append D b v v c j]
      have h4 := walkWeight_nonneg D hD b v v
      linarith

lemma foldr_min_le_base : ∀ (l : List ℚ) (b : ℚ), l.foldr min b ≤ b := by
  intro l
  induction l with
  | nil => intro b; exact le_refl b
  | cons x t ih =>
    intro b
    exact le_trans (min_le_right _ _) (ih b)

lemma foldr_min_le_mem : ∀ (l : List ℚ) (b x : ℚ), x ∈ l → l.foldr min b ≤ x := by
  intro l
  induction l with
  | nil => intro b x hx; exact absurd hx (List.not_mem_nil x)
  | cons y t ih =>
    intro b x hx
    rcases List.mem_cons.mp hx with rfl | hx'
    · exact min_le_left _ _
    · exact le_trans (min_le_right _ _) (ih b x hx')

lemma le_foldr_min : ∀ (l : List ℚ) (b c : ℚ), (∀ x ∈ l, c ≤ x) → c ≤ b →
    c ≤ l.foldr min b := by
  intro l
  induction l with
  | nil => intro b c _ hb; exact hb
  | cons y t ih =>
    intro b c hl hb
    exact le_min (hl y (List.mem_cons_self y t))
      (ih b c (fun x hx => hl x (List.mem_cons_of_mem y hx)) hb)

lemma floydAux_eq_shortestPathUpTo (D : Mat) (hD : ∀ a b, 0 ≤ D a b) (k i j : ℕ) :
    floydAux D k i j = shortestPathUpTo D k i j := by
  apply le_antisymm
  · rw [shortestPathUpTo]
    apply le_foldr_min
    · intro x hx
      rw [List.mem_map] at hx
      obtain ⟨vs, hvs, rfl⟩ := hx
      exact floydAux_le_walk D hD k vs i j ((mem_nodupLists k vs).mp hvs).2
    · exact floydAux_le_base D k i j
  · obtain ⟨vs, hb, heq⟩ := floydAux_achieved D k i j
    obtain ⟨ws, hnd, hwb, hle⟩ := exists_nodup_walk D hD k vs.length vs i j (le_refl _) hb
    rw [heq]
    refine le_trans (foldr_min_le_mem _ _ (walkWeight D i ws j) ?_) hle
    exact List.mem_map_of_mem _ ((mem_nodupLists k ws).mpr ⟨hnd, hwb⟩)

lemma chain_eq_floydAux (D : Mat) (N : ℕ) : ∀ k, k ≤ N → ∀ i j, i < N → j < N →
    poly_floyd_warshall_chain D N k i j = floydAux D k i j := by
  intro k
  induction k with
  | zero => intro _ i j _ _; rfl
  | succ k ih =>
    intro hk i j hi hj
    show poly_floyd_warshall (poly_floyd_warshall_chain D N k) N k i j = _
    rw [poly_floyd_warshall]
    rw [if_pos ⟨hi, hj⟩, poly_floyd_warshall_body,
      ih (by omega) i j hi hj, ih (by omega) i k hi (by omega),
      ih (by omega) k j (by omega) hj]
    rfl

lemma runCudaVariantImpl_loop_trace (N : ℕ) : ∀ fuel k (M : Mat), N ≤ k + fuel →
    (runCudaVariantImpl_loop N fuel k M).1 = List.range' k (N - k) := by
  intro fuel
  induction fuel with
  | zero =>
    intro k M h
    have h0 : N - k = 0 := by omega
    rw [runCudaVariantImpl_loop, h0]
    rfl
  | succ fuel ih =>
    intro k M h
    by_cases hk : k < N
    · rw [runCudaVariantImpl_loop, if_pos hk]
      show k :: (runCudaVariantImpl_loop N fuel (k + 1) _).1 = _
      rw [ih (k + 1) _ (by omega)]
      have hN : N - k = (N - (k + 1)) + 1 := by omega
      rw [hN, List.range'_succ]
    · rw [runCudaVariantImpl_loop, if_neg hk]
      have h0 : N - k = 0 := by omega
      rw [h0]
      rfl

lemma runCudaVariantImpl_loop_matrix (D : Mat) (N : ℕ) : ∀ fuel k, k ≤ N → N ≤ k + fuel →
    (runCudaVariantImpl_loop N fuel k (poly_floyd_warshall_chain D N k)).2
      = poly_floyd_warshall_chain D N N := by
  intro fuel
  induction fuel with
  | zero =>
    intro k hk h
    have hkN : k = N := by omega
    subst hkN
    rfl
  | succ fuel ih =>
    intro k hk h
    by_cases hlt : k < N
    · rw [runCudaVariantImpl_loop, if_pos hlt]
      exact ih (k + 1) (by omega) (by omega)
    · have hkN : k = N := by omega
      subst hkN
      rw [runCudaVariantImpl_loop, if_neg hlt]

lemma runCudaVariantImpl_rep_spec (D : Mat) (N : ℕ) :
    runCudaVariantImpl_rep D N = (List.range N, poly_floyd_warshall_chain D N N) := by
  rw [runCudaVariantImpl_rep, Prod.ext_iff]
  constructor
  · rw [runCudaVariantImpl_loop_trace N N 0 D (by omega)]
    rw [List.range_eq_range']
    norm_num
  · exact runCudaVariantImpl_loop_matrix D N N 0 (by omega) (by omega)

/-- C2 counterexample: the claim quantifies over every input matrix, but for
the matrix with 0 on the diagonal and -1 elsewhere (a negative cycle), after
launch `k = 1` of an `N = 2` repetition the entry `(1, 1)` holds `-4`, while
the shortest path from 1 to 1 using only intermediate vertices ≤ 1 is `-2`:
with negative weights the relaxation chain pumps the negative cycle and no
longer computes shortest paths. -/
theorem poly_floyd_warshall_ordering_counterexample :
    poly_floyd_warshall_chain matNeg 2 2 1 1 ≠ shortestPathUpTo matNeg 2 1 1 := by
  have c11 : poly_floyd_warshall_chain matNeg 2 1 1 1 = -2 := by
    norm_num [show poly_floyd_warshall_chain matNeg 2 1 = poly_floyd_warshall matNeg 2 0 from rfl,
      poly_floyd_warshall, poly_floyd_warshall_body, matNeg, min_def]
  have h1 : poly_floyd_warshall_chain matNeg 2 2 1 1 = -4 := by
    rw [show poly_floyd_warshall_chain matNeg 2 2
        = poly_floyd_warshall (poly_floyd_warshall_chain matNeg 2 1) 2 1 from rfl]
    simp only [poly_floyd_warshall, poly_floyd_warshall_body]
    rw [if_pos (by norm_num : (1:ℕ) < 2 ∧ (1:ℕ) < 2), c11]
    norm_num [min_def]
  have h2 : shortestPathUpTo matNeg 2 1 1 = -2 := by
    rw [shortestPathUpTo, show nodupLists 2 = [[], [0], [0, 1], [1], [1, 0]] from rfl]
    simp only [List.map_cons, List.map_nil, List.foldr_cons, List.foldr_nil, walkWeight]
    norm_num [matNeg, min_def]
  rw [h1, h2]
  norm_num

/-- C2 as amended (restricted to matrices with non-negative entries): one
timed repetition of the `Base_CUDA` recurrence chain issues exactly `N`
launches indexed `k = 0, …, N-1` in increasing order on the one in-order
stream, its final matrix is the `N`-fold launch chain, and after launch `k`
every in-bounds entry `(i, j)` equals the shortest path from `i` to `j`
using only intermediate vertices ≤ `k` (minimum walk weight over
duplicate-free intermediate sequences). -/
theorem poly_floyd_warshall_ordering (D : Mat) (N : ℕ) (hD : ∀ a b, 0 ≤ D a b) :
    (runCudaVariantImpl_rep D N).1 = List.range N
      ∧ (runCudaVariantImpl_rep D N).2 = poly_floyd_warshall_chain D N N
      ∧ ∀ k, k < N → ∀ i j, i < N → j < N →
          poly_floyd_warshall_chain D N (k + 1) i j = shortestPathUpTo D (k + 1) i j := by
  refine ⟨?_, ?_, ?_⟩
  · rw [runCudaVariantImpl_rep_spec]
  · rw [runCudaVariantImpl_rep_spec]
  · intro k hk i j hi hj
    rw [chain_eq_floydAux D N (k + 1) (by omega) i j hi hj]
    exact floydAux_eq_shortestPathUpTo D hD (k + 1) i j

/-- Witness for C2 (amended) on the 2×2 matrix with 0 on the diagonal and 1
off it. -/
theorem poly_floyd_warshall_ordering_witness :
    (runCudaVariantImpl_rep matUnit 2).1 = List.range 2
      ∧ (runCudaVariantImpl_rep matUnit 2).2 = poly_floyd_warshall_chain matUnit 2 2
      ∧ ∀ k, k < 2 → ∀ i j, i < 2 → j < 2 →
          poly_floyd_warshall_chain matUnit 2 (k + 1) i j
            = shortestPathUpTo matUnit (k + 1) i j :=
  poly_floyd_warshall_ordering matUnit 2 (by
    intro a b
    simp only [matUnit]
    split <;> norm_num)

/-- C8: a kernel thread whose computed `(i, j)` is out of bounds performs no
matrix access at all; during any launch `k < N` every access of every thread
is in bounds; and for `N ≤ 1` the recurrence chain issues at most one launch. -/
theorem poly_floyd_warshall_guard (N k i j : ℕ) (D : Mat) :
    (N ≤ i ∨ N ≤ j → poly_floyd_warshall_accesses N k i j = [])
      ∧ (k < N → ∀ p ∈ poly_floyd_warshall_accesses N k i j, p.1 < N ∧ p.2 < N)
      ∧ (N ≤ 1 → (runCudaVariantImpl_rep D N).1.length ≤ 1) := by
  refine ⟨?_, ?_, ?_⟩
  · intro h
    rw [poly_floyd_warshall_accesses, if_neg]
    rintro ⟨h1, h2⟩
    omega
  · intro hk p hp
    rw [poly_floyd_warshall_accesses] at hp
    by_cases hij : i < N ∧ j < N
    · rw [if_pos hij] at hp
      obtain ⟨hi, hj⟩ := hij
      simp only [List.mem_cons, List.not_mem_nil, or_false] at hp
      rcases hp with rfl | rfl | rfl | rfl <;>
        first
          | exact ⟨hi, hj⟩
          | exact ⟨hi, hk⟩
          | exact ⟨hk, hj⟩
    · rw [if_neg hij] at hp
      exact absurd hp (List.not_mem_nil p)
  · intro hN
    rw [runCudaVariantImpl_rep_spec]
    simpa using hN

/-- Witness for C8 at `N = 1`, `k = 0` and the out-of-bounds thread `(1, 0)`. -/
theorem poly_floyd_warshall_guard_witness :
    poly_floyd_warshall_accesses 1 0 1 0 = []
      ∧ (runCudaVariantImpl_rep matUnit 1).1.length ≤ 1 :=
  ⟨(poly_floyd_warshall_guard 1 0 1 0 matUnit).1 (Or.inl (le_refl 1)),
    (poly_floyd_warshall_guard 1 0 1 0 matUnit).2.2 (le_refl 1)⟩

/-! ## Dispatcher lemmas -/

lemma runCudaVariant_loop_exec (numValid : ℕ) (valid : ℕ → Bool) (tune_idx : ℕ) :
    ∀ (bs : List ℕ) (t : ℕ),
      (runCudaVariant_loop numValid valid tune_idx bs t).1
        = if t ≤ tune_idx then (gpuTunings numValid valid bs)[tune_idx - t]?.toList
          else [] := by
  intro bs
  induction bs with
  | nil =>
    intro t
    simp [runCudaVariant_loop, gpuTunings]
  | cons b rest ih =>
    intro t
    by_cases hacc : validBlockSizeOK numValid valid b
    · rw [runCudaVariant_loop]
      simp only [hacc, if_true]
      rw [ih (t + 2)]
      have henum : gpuTunings numValid valid (b :: rest)
          = (b, GridStrategy.block) :: (b, GridStrategy.occgs)
              :: gpuTunings numValid valid rest := by
        simp only [gpuTunings, List.flatMap_cons, hacc, if_true]
        rfl
      rw [henum]
      by_cases h0 : tune_idx = t
      · subst h0
        rw [if_pos (le_refl _), Nat.sub_self]
        simp [(by omega : ¬ tune_idx + 2 ≤ tune_idx), (by omega : ¬ tune_idx = tune_idx + 1)]
      · by_cases h1 : tune_idx = t + 1
        · subst h1
          rw [if_pos (show t ≤ t + 1 by omega)]
          have hidx : t + 1 - t = 0 + 1 := by omega
          rw [hidx]
          simp [(by omega : ¬ t + 2 ≤ t + 1), (by omega : ¬ t + 1 = t),
            List.getElem?_cons_succ, List.getElem?_cons_zero]
        · by_cases h2 : t + 2 ≤ tune_idx
          · rw [if_pos (show t ≤ tune_idx by omega), if_pos h2]
            obtain ⟨d, hd⟩ : ∃ d, tune_idx - t = d + 1 + 1 := ⟨tune_idx - t - 2, by omega⟩
            have hd2 : tune_idx - (t + 2) = d := by omega
            rw [hd, hd2]
            simp [h0, h1, List.getElem?_cons_succ]
          · rw [if_neg (show ¬ t ≤ tune_idx by omega)]
            simp [h0, h1, (show ¬ t + 2 ≤ tune_idx by omega)]
    · rw [runCudaVariant_loop]
      simp only [hacc, Bool.false_eq_true, if_false]
      rw [ih t]
      have henum : gpuTunings numValid valid (b :: rest) = gpuTunings numValid valid rest := by
        simp only [gpuTunings, List.flatMap_cons, hacc, Bool.false_eq_true, if_false]
        rfl
      rw [henum]

lemma runCudaVariant_loop_t (numValid : ℕ) (valid : ℕ → Bool) (tune_idx : ℕ) :
    ∀ (bs : List ℕ) (t : ℕ),
      (runCudaVariant_loop numValid valid tune_idx bs t).2
        = t + 2 * (bs.filter (validBlockSizeOK numValid valid)).length := by
  intro bs
  induction bs with
  | nil => intro t; simp [runCudaVariant_loop]
  | cons b rest ih =>
    intro t
    by_cases hacc : validBlockSizeOK numValid valid b
    · rw [runCudaVariant_loop]
      simp only [hacc, if_true, List.filter_cons_of_pos]
      rw [ih (t + 2)]
      simp only [List.length_cons]
      ring
    · rw [runCudaVariant_loop]
      simp only [hacc, Bool.false_eq_true, if_false]
      rw [ih t, List.filter_cons_of_neg (by simpa using hacc)]

lemma setCudaTuningDefinitions_eq (numValid : ℕ) (valid : ℕ → Bool) :
    ∀ bs, setCudaTuningDefinitions numValid valid bs
      = (gpuTunings numValid valid bs).map configName := by
  intro bs
  induction bs with
  | nil => rfl
  | cons b rest ih =>
    simp only [setCudaTuningDefinitions, gpuTunings, List.flatMap_cons, List.map_append] at ih ⊢
    by_cases h : validBlockSizeOK numValid valid b
    · simp only [h, if_true]
      rw [ih]
      rfl
    · simp only [h, if_false]
      rw [ih]
      rfl

/-- C5 counterexample: with candidate list `[64, 128]` and a filter accepting
only 128, `tuning_index = 0` executes `(128, block)`, while with the
always-true filter (`numValidGPUBlockSize() == 0`) the same index executes
`(64, block)` — the configuration named by a tuning index depends on the
filter — and after the walk the counter `t` is 2, not 4: `t` does not advance
for the rejected size 64. -/
theorem runCudaVariant_filter_counterexample :
    (runCudaVariant_loop 0 (fun b => b == 128) 0 [64, 128] 0).1
        ≠ (runCudaVariant_loop 1 (fun b => b == 128) 0 [64, 128] 0).1
      ∧ (runCudaVariant_loop 1 (fun b => b == 128) 0 [64, 128] 0).2 = 2
      ∧ (2 : ℕ) ≠ 4 := by
  decide

/-- C5 as amended: a block size that fails the validity filter is skipped
without producing a run and without advancing the running counter `t`; the
dispatcher executes exactly the `tune_idx`-th entry (if any) of the
enumeration of the accepted sizes' tunings, and the final counter is twice
the number of accepted sizes — so `tuning_index` is a stable address into the
filtered enumeration for a fixed candidate list and filter. -/
theorem runCudaVariant_filter_skip (numValid : ℕ) (valid : ℕ → Bool)
    (tune_idx : ℕ) (bs : List ℕ) :
    (runCudaVariant_loop numValid valid tune_idx bs 0).1
        = (gpuTunings numValid valid bs)[tune_idx]?.toList
      ∧ (runCudaVariant_loop numValid valid tune_idx bs 0).2
        = 2 * (bs.filter (validBlockSizeOK numValid valid)).length := by
  constructor
  · rw [runCudaVariant_loop_exec numValid valid tune_idx bs 0,
      if_pos (Nat.zero_le tune_idx), Nat.sub_zero]
  · rw [runCudaVariant_loop_t numValid valid tune_idx bs 0, Nat.zero_add]

/-- C9: for a variant id outside the declared set, `PI_REDUCE::runCudaVariant`
streams the diagnostic carrying the id and performs no run (no executed
tuning, counter untouched, not fatal), and likewise
`CONVECTION3DPA::runOpenMPTargetVariant` for ids outside its declared set;
neither aborts, so the remaining variants and tunings are unaffected. -/
theorem runCudaVariant_unknown (vid : VariantID) (numValid : ℕ) (valid : ℕ → Bool)
    (tune_idx : ℕ) (bs : List ℕ)
    (h1 : vid ≠ VariantID.Base_CUDA) (h2 : vid ≠ VariantID.RAJA_CUDA)
    (h3 : vid ≠ VariantID.Base_OpenMPTarget) (h4 : vid ≠ VariantID.RAJA_OpenMPTarget) :
    runCudaVariant vid numValid valid tune_idx bs
        = ⟨[], 0, [(piUnknownMsg, vid)], false⟩
      ∧ CONVECTION3DPA_runOpenMPTargetVariant vid
        = ⟨[], 0, [(convUnknownMsg, vid)], false⟩ := by
  constructor
  · rw [runCudaVariant, if_neg]
    rintro (h | h)
    · exact h1 h
    · exact h2 h
  · rw [CONVECTION3DPA_runOpenMPTargetVariant, if_neg h3, if_neg h4]

/-- Witness for C9 at the undeclared id `Lambda_CUDA`. -/
theorem runCudaVariant_unknown_witness :
    runCudaVariant VariantID.Lambda_CUDA 0 (fun _ => true) 0 [256]
        = ⟨[], 0, [(piUnknownMsg, VariantID.Lambda_CUDA)], false⟩
      ∧ CONVECTION3DPA_runOpenMPTargetVariant VariantID.Lambda_CUDA
        = ⟨[], 0, [(convUnknownMsg, VariantID.Lambda_CUDA)], false⟩ :=
  runCudaVariant_unknown VariantID.Lambda_CUDA 0 (fun _ => true) 0 [256]
    (by decide) (by decide) (by decide) (by decide)

/-- C10: the names registered by `setCudaTuningDefinitions` are exactly the
names of the dispatcher's tuning enumeration in the same order, and for every
`tune_idx` the configuration `runCudaVariant` executes is the one whose name
sits at position `tune_idx` of the registered list. -/
theorem setCudaTuningDefinitions_names (numValid : ℕ) (valid : ℕ → Bool) (bs : List ℕ) :
    setCudaTuningDefinitions numValid valid bs = (gpuTunings numValid valid bs).map configName
      ∧ ∀ tune_idx, ((runCudaVariant_loop numValid valid tune_idx bs 0).1).map configName
          = (setCudaTuningDefinitions numValid valid bs)[tune_idx]?.toList := by
  refine ⟨setCudaTuningDefinitions_eq numValid valid bs, fun tune_idx => ?_⟩
  rw [runCudaVariant_loop_exec numValid valid tune_idx bs 0,
    if_pos (Nat.zero_le tune_idx), Nat.sub_zero,
    setCudaTuningDefinitions_eq numValid valid bs]
  cases h : (gpuTunings numValid valid bs)[tune_idx]? <;>
    simp [h, List.getElem?_map]
